import Mathlib

/-!
# FIR filter reference model (Fir1D) and its block convolution (fir_1d_golden)

A shallow embedding of `fir_1d_ref.cpp`, and of the value type `MyComplex` of
`mycomplex.cpp`.

* `std::vector<double>` is a `List α`; the sample type `α` only needs the
  operations the code uses (`0.0`, `+`, `*`).  No algebraic law is assumed by the
  definitions; theorems that need exact arithmetic ask for a (commutative)
  semiring, of which `ℚ` and `ℝ` are instances.  `IntDouble` instantiates `α`
  with double-precision rounding on integer values, where addition is not
  associative; `SignedDouble` also keeps the sign of zero and has NaN.
* Every indexed vector access is checked: an out-of-range read or write makes
  the embedded function return `none`.
* `std::size_t` values are natural numbers; the one subtraction that can wrap
  (`reg_.size() - 1`) is modelled with its 64-bit wrap-around.
-/

namespace Fir

variable {α : Type}

/-! ## Vectors with checked accesses -/

/-- Read of `v[i]`: `none` when `i` is out of range. -/
def vec_read (v : List α) (i : Nat) : Option α := v[i]?

/-- Write `v[i] = a`: `none` when `i` is out of range. -/
def vec_write (v : List α) (i : Nat) (a : α) : Option (List α) :=
  if i < v.length then some (v.set i a) else none

/-- Largest value of `std::size_t` (64-bit). -/
def SIZE_MAX : Nat := 2 ^ 64 - 1

/-- The `std::size_t` expression `n - 1`: wraps to `SIZE_MAX` at `n = 0`
(a vector size is always below `2 ^ 64`). -/
def size_pred (n : Nat) : Nat := if n = 0 then SIZE_MAX else n - 1

/-! ## The filter state -/

/-- Class `Fir1D`: the coefficients `h_` and the delay line `reg_`. -/
structure Fir1D (α : Type) where
  h_ : List α
  reg_ : List α
deriving DecidableEq

namespace Fir1D

/-- Constructor `Fir1D() = default`: both vectors empty. -/
def empty : Fir1D α := ⟨[], []⟩

/-- Method `set_taps`: `h_ = h; reg_.assign(h_.size(), 0.0)`. -/
def set_taps [Zero α] (_s : Fir1D α) (h : List α) : Fir1D α :=
  { h_ := h, reg_ := List.replicate h.length 0 }

/-- Constructor `Fir1D(h)`: `set_taps(h)` on the default-initialised object. -/
def ofTaps [Zero α] (h : List α) : Fir1D α := set_taps empty h

/-- Method `taps`: the coefficient vector. -/
def taps (s : Fir1D α) : List α := s.h_

/-- Method `reset`: `reg_.assign(h_.size(), 0.0)`. -/
def reset [Zero α] (s : Fir1D α) : Fir1D α :=
  { s with reg_ := List.replicate s.h_.length 0 }

/-- The loop `for (i = start; i > 0; --i) reg_[i] = reg_[i - 1];`. -/
def shift_loop : Nat → List α → Option (List α)
  | 0, reg => some reg
  | i + 1, reg =>
    match vec_read reg i with
    | none => none
    | some v =>
      match vec_write reg (i + 1) v with
      | none => none
      | some reg1 => shift_loop i reg1

/-- One iteration of the weighted-sum loop: `y_n += h_[k] * reg_[k]`. -/
def mac_step [Add α] [Mul α] (h reg : List α) (y : α) (k : Nat) : Option α :=
  match vec_read h k, vec_read reg k with
  | some a, some b => some (y + a * b)
  | _, _ => none

/-- The loop `for (k = 0; k < h_.size(); ++k) y_n += h_[k] * reg_[k];` from `y_n = 0.0`. -/
def mac_loop [Zero α] [Add α] [Mul α] (h reg : List α) : Option α :=
  (List.range h.length).foldlM (mac_step h reg) 0

/-- Method `process_sample`: returns the output sample and the new state. -/
def process_sample [Zero α] [Add α] [Mul α] (s : Fir1D α) (x_n : α) :
    Option (α × Fir1D α) :=
  if s.h_.isEmpty then some (0, s)
  else
    match shift_loop (size_pred s.reg_.length) s.reg_ with
    | none => none
    | some r1 =>
      match vec_write r1 0 x_n with
      | none => none
      | some r2 =>
        match mac_loop s.h_ r2 with
        | none => none
        | some y_n => some (y_n, { s with reg_ := r2 })

/-- Inner loop body of `fir_1d_golden`:
`if (n >= k) { x_idx = n - k; if (x_idx < n_len) result += h[k] * x[x_idx]; }`. -/
def golden_step [Add α] [Mul α] (x h : List α) (n : Nat) (result : α) (k : Nat) :
    Option α :=
  if n ≥ k then
    if n - k < x.length then
      match vec_read h k, vec_read x (n - k) with
      | some a, some b => some (result + a * b)
      | _, _ => none
    else some result
  else some result

/-- Inner loop of `fir_1d_golden` for output index `n`, from `result = 0.0`. -/
def golden_inner [Zero α] [Add α] [Mul α] (x h : List α) (n : Nat) : Option α :=
  (List.range h.length).foldlM (golden_step x h n) 0

/-- Outer loop body of `fir_1d_golden`: compute `result`, then `y[n] = result`. -/
def golden_outer [Zero α] [Add α] [Mul α] (x h : List α) (y : List α) (n : Nat) :
    Option (List α) :=
  match golden_inner x h n with
  | none => none
  | some result => vec_write y n result

/-- Static method `fir_1d_golden`: full linear convolution of `x` and `h`. -/
def fir_1d_golden [Zero α] [Add α] [Mul α] (x h : List α) : Option (List α) :=
  let n_len := x.length
  let l_len := h.length
  if n_len = 0 ∨ l_len = 0 then some []
  else
    let y_len := n_len + l_len - 1
    (List.range y_len).foldlM (golden_outer x h) (List.replicate y_len 0)

/-- Feed the samples `xs` in order through `process_sample`, collecting the
returned values and the final state. -/
def feed [Zero α] [Add α] [Mul α] (s : Fir1D α) : List α → Option (List α × Fir1D α)
  | [] => some ([], s)
  | x :: xs =>
    match process_sample s x with
    | none => none
    | some (y, s1) =>
      match feed s1 xs with
      | none => none
      | some (ys, s2) => some (y :: ys, s2)

/-- A call of one of the state-changing public methods of `Fir1D`. -/
inductive Call (α : Type) where
  | set_taps (h : List α)
  | process_sample (x_n : α)
  | reset

/-- State after one method call (`none` if the call fails). -/
def call [Zero α] [Add α] [Mul α] (s : Fir1D α) : Call α → Option (Fir1D α)
  | Call.set_taps h => some (set_taps s h)
  | Call.process_sample x_n =>
    match process_sample s x_n with
    | none => none
    | some (_, s1) => some s1
  | Call.reset => some (reset s)

/-- State after a finite sequence of method calls. -/
def run_calls [Zero α] [Add α] [Mul α] (s : Fir1D α) : List (Call α) → Option (Fir1D α)
  | [] => some s
  | c :: cs =>
    match call s c with
    | none => none
    | some s1 => run_calls s1 cs

end Fir1D

open Fir1D

/-! ## Double-precision arithmetic on integer values

The values of type `double` that are integers, with the IEEE 754 binary64
operations `+` and `*` (round to nearest, ties to even, 53-bit significand).
On integers the exact sum and product are integers, so rounding an integer is
all that is needed.  Overflow to infinity (magnitude `2 ^ 1024` and above) is
outside this model. -/

/-- Exponent `e` of the spacing `2 ^ e` of binary64 values around the natural
number `m`: the number of halvings that bring `m` below `2 ^ 53`. -/
def ulp_exp : Nat → Nat → Nat
  | 0, _ => 0
  | fuel + 1, m => if m < 2 ^ 53 then 0 else ulp_exp fuel (m / 2) + 1

/-- Round an integer to the nearest binary64 value, ties to even. -/
def round_binary64 (z : ℤ) : ℤ :=
  let m := z.natAbs
  let u := 2 ^ ulp_exp m m
  let q := m / u
  let r := m % u
  let q1 := if 2 * r > u ∨ (2 * r = u ∧ q % 2 = 1) then q + 1 else q
  Int.sign z * ((q1 * u : Nat) : ℤ)

/-- An integer-valued `double`. -/
structure IntDouble where
  val : ℤ
deriving DecidableEq

instance : Zero IntDouble := ⟨⟨0⟩⟩

instance : Add IntDouble := ⟨fun a b => ⟨round_binary64 (a.val + b.val)⟩⟩

instance : Mul IntDouble := ⟨fun a b => ⟨round_binary64 (a.val * b.val)⟩⟩

/-! ## Double-precision values with a signed zero and NaN

The integer-valued doubles again, now keeping the sign of zero, together with
NaN.  The operations follow IEEE 754 in round-to-nearest mode: a NaN operand
gives NaN; an exact sum of zero is `-0.0` only when both operands are negative
(that is, both are `-0.0`), else `+0.0`; the sign of a product is the exclusive
or of the signs.  Infinities and overflow are outside this model. -/

/-- An integer-valued `double` with its sign bit (so `+0.0` and `-0.0` differ),
or NaN. -/
inductive SignedDouble where
  | finite (negative : Bool) (magnitude : Nat)
  | nan
deriving DecidableEq

namespace SignedDouble

/-- Signed integer value of a finite double. -/
def signed (negative : Bool) (magnitude : Nat) : ℤ :=
  if negative then -(magnitude : ℤ) else (magnitude : ℤ)

/-- Double-precision `a + b`. -/
def add : SignedDouble → SignedDouble → SignedDouble
  | finite s1 m1, finite s2 m2 =>
    let z := round_binary64 (signed s1 m1 + signed s2 m2)
    if z = 0 then finite (s1 && s2) 0 else finite (decide (z < 0)) z.natAbs
  | _, _ => nan

/-- Double-precision `a * b`. -/
def mul : SignedDouble → SignedDouble → SignedDouble
  | finite s1 m1, finite s2 m2 =>
    finite (xor s1 s2) (round_binary64 ((m1 : ℤ) * (m2 : ℤ))).natAbs
  | _, _ => nan

/-- The comparison `a == b` of doubles: zeros of either sign are equal, NaN is
equal to nothing. -/
def ieee_eq : SignedDouble → SignedDouble → Bool
  | finite s1 m1, finite s2 m2 => decide (signed s1 m1 = signed s2 m2)
  | _, _ => false

end SignedDouble

instance : Zero SignedDouble := ⟨SignedDouble.finite false 0⟩

instance : One SignedDouble := ⟨SignedDouble.finite false 1⟩

instance : Add SignedDouble := ⟨SignedDouble.add⟩

instance : Mul SignedDouble := ⟨SignedDouble.mul⟩

/-! ## The complex value type (`mycomplex.h`, `mycomplex.cpp`) -/

/-- Class `MyComplex`: the value `x_ + i y_`. -/
structure MyComplex (α : Type) where
  x_ : α
  y_ : α
deriving DecidableEq

namespace MyComplex

/-- Member `operator+(const MyComplex& t)`. -/
def operator_plus [Add α] (z t : MyComplex α) : MyComplex α :=
  ⟨z.x_ + t.x_, z.y_ + t.y_⟩

/-- Member `operator-(const MyComplex& t)`. -/
def operator_minus [Sub α] (z t : MyComplex α) : MyComplex α :=
  ⟨z.x_ - t.x_, z.y_ - t.y_⟩

/-- Member `operator*(double n)`. -/
def operator_times [Mul α] (z : MyComplex α) (n : α) : MyComplex α :=
  ⟨z.x_ * n, z.y_ * n⟩

/-- Member `operator/(const MyComplex& t)`, with its guard `check == 0`. -/
def operator_div [Zero α] [Add α] [Sub α] [Mul α] [Div α] [DecidableEq α]
    (z t : MyComplex α) : MyComplex α :=
  let check := t.x_ * t.x_ + t.y_ * t.y_
  if check = 0 then ⟨0, 0⟩
  else
    let new_x := (z.x_ * t.x_ + z.y_ * t.y_) / check
    let new_y := (z.y_ * t.x_ - z.x_ * t.y_) / check
    ⟨new_x, new_y⟩

/-- Friend `operator+(double a, const MyComplex& t)`. -/
def friend_operator_plus [Add α] (a : α) (t : MyComplex α) : MyComplex α :=
  ⟨t.x_ + a, t.y_⟩

/-- Friend `operator-(double a, const MyComplex& t)`. -/
def friend_operator_minus [Sub α] (a : α) (t : MyComplex α) : MyComplex α :=
  ⟨t.x_ - a, t.y_⟩

/-- Friend `operator*(double a, const MyComplex& t)`: `t * a`. -/
def friend_operator_times [Mul α] (a : α) (t : MyComplex α) : MyComplex α :=
  operator_times t a

end MyComplex

/-! ## Closed forms of the loops -/

/-- Accumulation `((0 + t 0) + t 1) + ...` over `k = 0 .. K-1`, ascending. -/
def acc_sum [Zero α] [Add α] (K : Nat) (t : Nat → α) : α :=
  (List.range K).foldl (fun y k => y + t k) 0

/-- Weighted sum of coefficients and register, ascending in `k`. -/
def dot [Zero α] [Add α] [Mul α] (h reg : List α) : α :=
  acc_sum h.length (fun k => h.getD k 0 * reg.getD k 0)

/-- Value of output index `n` of the block convolution: the in-support terms
`h[k] * x[n - k]`, accumulated ascending in `k`. -/
def conv_at [Zero α] [Add α] [Mul α] (x h : List α) (n : Nat) : α :=
  (List.range h.length).foldl
    (fun r k => if k ≤ n ∧ n - k < x.length then r + h.getD k 0 * x.getD (n - k) 0 else r) 0

/-- Register after the samples `xs` have been shifted into the register `r0`
of a `K`-tap filter: most recent first, cut to `K` entries. -/
def window (K : Nat) (r0 xs : List α) : List α := (xs.reverse ++ r0).take K

/-- Values returned by feeding `xs` to a filter with coefficients `h` whose
register holds `r0`: the `i`-th one is the weighted sum over the register after
`i + 1` samples. -/
def outputs [Zero α] [Add α] [Mul α] (h r0 xs : List α) : List α :=
  (List.range xs.length).map (fun i => dot h (window h.length r0 (xs.take (i + 1))))

theorem foldlM_option_inv {β γ : Type} (P : β → Prop) (f : β → γ → Option β)
    (g : β → γ → β) (l : List γ) (b : β) (hb : P b)
    (hstep : ∀ y k, k ∈ l → P y → f y k = some (g y k) ∧ P (g y k)) :
    l.foldlM f b = some (l.foldl g b) ∧ P (l.foldl g b) := by
  induction l generalizing b with
  | nil => exact ⟨rfl, hb⟩
  | cons a l ih =>
    obtain ⟨h1, h2⟩ := hstep b a (List.mem_cons_self a l) hb
    have := ih (g b a) h2 (fun y k hk hy => hstep y k (List.mem_cons_of_mem a hk) hy)
    simpa [List.foldlM_cons, h1] using this

theorem vec_read_eq_getD [Zero α] (v : List α) (i : Nat) (hi : i < v.length) :
    vec_read v i = some (v.getD i 0) := by
  simp [vec_read, List.getD, List.getElem?_eq_getElem hi]

theorem mac_loop_eq [Zero α] [Add α] [Mul α] (h reg : List α)
    (hlen : h.length ≤ reg.length) : mac_loop h reg = some (dot h reg) := by
  have := foldlM_option_inv (fun _ => True) (mac_step h reg)
    (fun y k => y + h.getD k 0 * reg.getD k 0) (List.range h.length) 0 trivial
    (by
      intro y k hk _
      have hk1 : k < h.length := List.mem_range.mp hk
      simp [mac_step, vec_read_eq_getD h k hk1,
        vec_read_eq_getD reg k (lt_of_lt_of_le hk1 hlen)])
  exact this.1

theorem golden_inner_eq [Zero α] [Add α] [Mul α] (x h : List α) (n : Nat) :
    golden_inner x h n = some (conv_at x h n) := by
  have := foldlM_option_inv (fun _ => True) (golden_step x h n)
    (fun r k => if k ≤ n ∧ n - k < x.length then r + h.getD k 0 * x.getD (n - k) 0 else r)
    (List.range h.length) 0 trivial
    (by
      intro y k hk _
      have hk1 : k < h.length := List.mem_range.mp hk
      refine ⟨?_, trivial⟩
      unfold golden_step
      by_cases h1 : n ≥ k
      · by_cases h2 : n - k < x.length
        · simp [h1, h2, vec_read_eq_getD h k hk1, vec_read_eq_getD x (n - k) h2]
        · simp [h1, h2]
      · simp [h1])
  exact this.1

theorem foldl_set_getElem? (c : Nat → α) (m : Nat) (y0 : List α) (j : Nat) :
    ((List.range m).foldl (fun y n => y.set n (c n)) y0)[j]? =
      if j < m ∧ j < y0.length then some (c j) else y0[j]? := by
  induction m with
  | zero => simp
  | succ m ih =>
    have hlen : ∀ (l : List Nat) (y : List α),
        (l.foldl (fun y n => y.set n (c n)) y).length = y.length := by
      intro l
      induction l with
      | nil => intro y; rfl
      | cons a l ihl => intro y; simp [List.foldl_cons, ihl]
    rw [List.range_succ, List.foldl_append]
    simp only [List.foldl_cons, List.foldl_nil, List.getElem?_set, hlen, ih]
    by_cases hjm : m = j
    · subst hjm
      by_cases h1 : m < y0.length
      · simp [h1]
      · simp [h1]
        omega
    · by_cases h1 : j < m
      · have : j < m + 1 := by omega
        simp [hjm, h1, this]
      · have : ¬ j < m + 1 := by omega
        simp [hjm, h1, this]

theorem foldl_set_eq_map (c : Nat → α) (L : Nat) (y0 : List α) (hy : y0.length = L) :
    (List.range L).foldl (fun y n => y.set n (c n)) y0 = (List.range L).map c := by
  apply List.ext_getElem?
  intro j
  rw [foldl_set_getElem?]
  by_cases hj : j < L
  · simp [hj, hy, List.getElem?_range hj]
  · have h1 : y0[j]? = none := List.getElem?_eq_none (by omega)
    have h2 : ((List.range L).map c)[j]? = none :=
      List.getElem?_eq_none (by simp; omega)
    simp [hj, h1, h2]

/-- Closed form of the block convolution: `fir_1d_golden` always returns, and
its result lists `conv_at x h n` for `n = 0 .. |x| + |h| - 2`. -/
theorem fir_1d_golden_eq [Zero α] [Add α] [Mul α] (x h : List α) :
    fir_1d_golden x h =
      some (if x.length = 0 ∨ h.length = 0 then []
        else (List.range (x.length + h.length - 1)).map (conv_at x h)) := by
  unfold fir_1d_golden
  by_cases h0 : x.length = 0 ∨ h.length = 0
  · simp only [h0, if_true]
  · simp only [h0, if_false]
    have := foldlM_option_inv (fun y : List α => y.length = x.length + h.length - 1)
      (golden_outer x h) (fun y n => y.set n (conv_at x h n))
      (List.range (x.length + h.length - 1))
      (List.replicate (x.length + h.length - 1) 0) (by simp)
      (by
        intro y n hn hy
        have hn1 : n < y.length := by rw [hy]; exact List.mem_range.mp hn
        have hn2 : n < x.length + h.length - 1 := List.mem_range.mp hn
        simp [golden_outer, golden_inner_eq, vec_write, hn2, hy])
    rw [this.1, foldl_set_eq_map _ _ _ (by simp)]

theorem shift_loop_spec (i : Nat) (reg : List α) (hi : i < reg.length) :
    ∃ r, shift_loop i reg = some r ∧ r.length = reg.length ∧
      ∀ j, r[j]? = if 1 ≤ j ∧ j ≤ i then reg[j - 1]? else reg[j]? := by
  induction i generalizing reg with
  | zero =>
    refine ⟨reg, rfl, rfl, ?_⟩
    intro j
    have : ¬ (1 ≤ j ∧ j ≤ 0) := by omega
    rw [if_neg this]
  | succ i ih =>
    have hi1 : i < reg.length := by omega
    obtain ⟨r, hr, hlen, hget⟩ := ih (reg.set (i + 1) (reg[i])) (by simpa using hi1)
    refine ⟨r, ?_, by simpa using hlen, ?_⟩
    · simp [shift_loop, vec_read, vec_write, List.getElem?_eq_getElem hi1, hi, hr]
    · intro j
      rw [hget j]
      simp only [List.getElem?_set]
      by_cases h1 : 1 ≤ j ∧ j ≤ i
      · have h2 : 1 ≤ j ∧ j ≤ i + 1 := by omega
        have h3 : ¬ (i + 1 = j - 1) := by omega
        simp [h1, h2, h3]
      · by_cases h4 : j = i + 1
        · subst h4
          simp [hi, List.getElem?_eq_getElem hi1]
        · have h2 : ¬ (1 ≤ j ∧ j ≤ i + 1) := by omega
          have h3 : ¬ (i + 1 = j) := by omega
          simp [h1, h2, h3]

theorem shift_then_insert (reg : List α) (x_n : α) (hpos : 0 < reg.length) :
    ∃ r1, shift_loop (size_pred reg.length) reg = some r1 ∧
      vec_write r1 0 x_n = some (x_n :: reg.dropLast) := by
  have hp : size_pred reg.length = reg.length - 1 := by
    unfold size_pred
    rw [if_neg (by omega)]
  obtain ⟨r, hr, hlen, hget⟩ := shift_loop_spec (reg.length - 1) reg (by omega)
  refine ⟨r, by rw [hp, hr], ?_⟩
  have h0 : 0 < r.length := by omega
  simp only [vec_write, h0, if_true]
  congr 1
  apply List.ext_getElem?
  intro j
  cases j with
  | zero => simp [List.getElem?_set, h0]
  | succ j =>
    simp only [List.getElem?_set, hget]
    by_cases hj : j + 1 ≤ reg.length - 1
    · have : j < reg.length - 1 := by omega
      simp [hj, List.dropLast_eq_take, List.getElem?_take, this]
    · have h1 : reg[j + 1]? = none := List.getElem?_eq_none (by omega)
      have h2 : (reg.dropLast)[j]? = none := List.getElem?_eq_none (by simp; omega)
      simp [hj, h1, h2]

/-- Closed form of `process_sample` on a state whose register is as long as its
non-empty coefficient vector: the call returns, the register becomes the new
sample followed by all but the last of the old entries, and the returned value
is the weighted sum over the new register. -/
theorem process_sample_eq [Zero α] [Add α] [Mul α] (s : Fir1D α) (x_n : α)
    (hne : s.h_ ≠ []) (hlen : s.reg_.length = s.h_.length) :
    process_sample s x_n =
      some (dot s.h_ (x_n :: s.reg_.dropLast), { s with reg_ := x_n :: s.reg_.dropLast }) := by
  have hpos : 0 < s.h_.length := List.length_pos.mpr hne
  obtain ⟨r1, hr1, hw⟩ := shift_then_insert s.reg_ x_n (by omega)
  have hmac := mac_loop_eq s.h_ (x_n :: s.reg_.dropLast) (by simp; omega)
  simp [process_sample, hne, hr1, hw, hmac]

theorem process_sample_nil [Zero α] [Add α] [Mul α] (s : Fir1D α) (x_n : α)
    (he : s.h_ = []) : process_sample s x_n = some (0, s) := by
  simp [process_sample, he]

theorem take_append_take (K : Nat) (a b : List α) :
    (a ++ b.take K).take K = (a ++ b).take K := by
  rw [List.take_append_eq_append_take, List.take_append_eq_append_take, List.take_take]
  congr 2
  omega

theorem window_cons (K : Nat) (r0 : List α) (x : α) (xs : List α) :
    window K (window K r0 [x]) xs = window K r0 (x :: xs) := by
  simp [window, take_append_take]

theorem cons_dropLast_eq_window (r : List α) (x : α) (hpos : 0 < r.length) :
    x :: r.dropLast = window r.length r [x] := by
  obtain ⟨n, hn⟩ : ∃ n, r.length = n + 1 := ⟨r.length - 1, by omega⟩
  simp [window, hn, List.dropLast_eq_take]

theorem window_length (K : Nat) (r0 xs : List α) (h0 : r0.length = K) :
    (window K r0 xs).length = K := by
  simp [window, h0]

theorem outputs_cons [Zero α] [Add α] [Mul α] (h r0 : List α) (x : α) (xs : List α) :
    outputs h r0 (x :: xs) =
      dot h (window h.length r0 [x]) :: outputs h (window h.length r0 [x]) xs := by
  simp [outputs, List.range_succ_eq_map, window_cons, Function.comp_def]

/-- Closed form of a run on a non-empty filter: every call returns. -/
theorem feed_eq [Zero α] [Add α] [Mul α] (s : Fir1D α) (xs : List α)
    (hne : s.h_ ≠ []) (hlen : s.reg_.length = s.h_.length) :
    feed s xs =
      some (outputs s.h_ s.reg_ xs, { s with reg_ := window s.h_.length s.reg_ xs }) := by
  induction xs generalizing s with
  | nil =>
    have : List.take s.h_.length s.reg_ = s.reg_ := by
      rw [← hlen]; exact List.take_length _
    simp [feed, outputs, window, this]
  | cons x xs ih =>
    have hpos : 0 < s.reg_.length := by
      rw [hlen]; exact List.length_pos.mpr hne
    have hstep := process_sample_eq s x hne hlen
    rw [cons_dropLast_eq_window s.reg_ x hpos, hlen] at hstep
    have := ih { s with reg_ := window s.h_.length s.reg_ [x] } hne
      (window_length _ _ _ hlen)
    simp only [feed, hstep, this, outputs_cons, window_cons]

/-- Closed form of a run on the zero-tap filter. -/
theorem feed_nil [Zero α] [Add α] [Mul α] (s : Fir1D α) (xs : List α) (he : s.h_ = []) :
    feed s xs = some (List.replicate xs.length 0, s) := by
  induction xs with
  | nil => rfl
  | cons x xs ih => simp [feed, process_sample_nil s x he, ih, List.replicate_succ]

theorem call_preserves_length [Zero α] [Add α] [Mul α] (s : Fir1D α) (c : Call α)
    (hlen : s.reg_.length = s.h_.length) :
    ∃ s1, call s c = some s1 ∧ s1.reg_.length = s1.h_.length := by
  cases c with
  | set_taps h => exact ⟨set_taps s h, rfl, by simp [set_taps]⟩
  | reset => exact ⟨reset s, rfl, by simp [reset]⟩
  | process_sample x_n =>
    by_cases he : s.h_ = []
    · exact ⟨s, by simp [call, process_sample_nil s x_n he], hlen⟩
    · refine ⟨{ s with reg_ := x_n :: s.reg_.dropLast }, ?_, ?_⟩
      · simp [call, process_sample_eq s x_n he hlen]
      · have hpos : 0 < s.h_.length := List.length_pos.mpr he
        simp only [List.length_cons, List.length_dropLast]
        omega

theorem run_calls_preserves_length [Zero α] [Add α] [Mul α] (s : Fir1D α)
    (cs : List (Call α)) (hlen : s.reg_.length = s.h_.length) :
    ∃ s1, run_calls s cs = some s1 ∧ s1.reg_.length = s1.h_.length := by
  induction cs generalizing s with
  | nil => exact ⟨s, rfl, hlen⟩
  | cons c cs ih =>
    obtain ⟨s1, h1, h2⟩ := call_preserves_length s c hlen
    obtain ⟨s2, h3, h4⟩ := ih s1 h2
    exact ⟨s2, by simp [run_calls, h1, h3], h4⟩

/-- A run from a freshly constructed filter always returns; it keeps the
coefficients, keeps the register as long as the coefficients and returns one
value per sample. -/
theorem feed_ofTaps_total [Zero α] [Add α] [Mul α] (h p : List α) :
    ∃ ys s, feed (ofTaps h) p = some (ys, s) ∧ s.h_ = h ∧
      s.reg_.length = h.length ∧ ys.length = p.length := by
  by_cases he : h = []
  · refine ⟨_, _, feed_nil (ofTaps h) p (by simp [ofTaps, set_taps, he]), ?_, ?_, ?_⟩
    · simp [ofTaps, set_taps]
    · simp [ofTaps, set_taps]
    · simp
  · refine ⟨_, _, feed_eq (ofTaps h) p (by simpa [ofTaps, set_taps] using he)
      (by simp [ofTaps, set_taps]), ?_, ?_, ?_⟩
    · simp [ofTaps, set_taps]
    · simp [ofTaps, set_taps, window]
    · simp [outputs]

theorem process_sample_total [Zero α] [Add α] [Mul α] (s : Fir1D α) (x_n : α)
    (hlen : s.reg_.length = s.h_.length) :
    ∃ y s1, process_sample s x_n = some (y, s1) := by
  by_cases he : s.h_ = []
  · exact ⟨_, _, process_sample_nil s x_n he⟩
  · exact ⟨_, _, process_sample_eq s x_n he hlen⟩

theorem call_keeps_taps [Zero α] [Add α] [Mul α] (s : Fir1D α) (c : Call α)
    (hlen : s.reg_.length = s.h_.length) (hc : ∀ h1, c ≠ Call.set_taps h1) :
    ∃ s1, call s c = some s1 ∧ s1.h_ = s.h_ ∧ s1.reg_.length = s1.h_.length := by
  cases c with
  | set_taps h => exact absurd rfl (hc h)
  | reset => exact ⟨reset s, rfl, rfl, by simp [reset]⟩
  | process_sample x_n =>
    by_cases he : s.h_ = []
    · exact ⟨s, by simp [call, process_sample_nil s x_n he], rfl, hlen⟩
    · refine ⟨{ s with reg_ := x_n :: s.reg_.dropLast }, ?_, rfl, ?_⟩
      · simp [call, process_sample_eq s x_n he hlen]
      · have hpos : 0 < s.h_.length := List.length_pos.mpr he
        simp only [List.length_cons, List.length_dropLast]
        omega

theorem run_calls_keeps_taps [Zero α] [Add α] [Mul α] (s : Fir1D α)
    (cs : List (Call α)) (hlen : s.reg_.length = s.h_.length)
    (hcs : ∀ c ∈ cs, ∀ h1, c ≠ Call.set_taps h1) :
    ∃ s1, run_calls s cs = some s1 ∧ s1.h_ = s.h_ := by
  induction cs generalizing s with
  | nil => exact ⟨s, rfl, rfl⟩
  | cons c cs ih =>
    obtain ⟨s1, h1, h2, h3⟩ :=
      call_keeps_taps s c hlen (hcs c (List.mem_cons_self c cs))
    obtain ⟨s2, h4, h5⟩ := ih s1 h3 (fun d hd => hcs d (List.mem_cons_of_mem c hd))
    exact ⟨s2, by simp [run_calls, h1, h4], by rw [h5, h2]⟩

theorem getElem?_eq_some_getD [Zero α] (l : List α) (k : Nat) (hk : k < l.length) :
    l[k]? = some (l.getD k 0) := by
  simp [List.getD, List.getElem?_eq_getElem hk]

theorem outputs_getElem? [Zero α] [Add α] [Mul α] (h r0 xs : List α) (i : Nat)
    (hi : i < xs.length) :
    (outputs h r0 xs)[i]? = some (dot h (window h.length r0 (xs.take (i + 1)))) := by
  simp only [outputs, List.getElem?_map, List.getElem?_range hi, Option.map_some']

theorem window_of_length_le (K : Nat) (r0 xs : List α) (hK : K ≤ xs.length) :
    window K r0 xs = xs.reverse.take K := by
  unfold window
  rw [List.take_append_of_le_length (by simpa using hK)]

/-- Off the invariant the checked model does fail: with one coefficient and an
empty register, `reg_.size() - 1` wraps and the first register access is out of
range. -/
theorem process_sample_off_invariant :
    process_sample (⟨[1], []⟩ : Fir1D ℤ) 3 = none := by
  decide

theorem foldl_ite_eq_foldl_filter {β : Type} (p : Nat → Prop) [DecidablePred p]
    (f : β → Nat → β) (l : List Nat) (b : β) :
    l.foldl (fun r k => if p k then f r k else r) b =
      (l.filter (fun k => decide (p k))).foldl f b := by
  induction l generalizing b with
  | nil => rfl
  | cons a l ih =>
    by_cases ha : p a
    · simp [List.filter_cons, ha, ih]
    · simp [List.filter_cons, ha, ih]

/-- The block convolution with the single coefficient `1.0`, in any arithmetic:
entry `n` of the result is `0.0 + 1.0 * x[n]`. -/
theorem golden_single_impulse_map [Zero α] [One α] [Add α] [Mul α] (x : List α) :
    fir_1d_golden x [1] = some (x.map (fun a => 0 + 1 * a)) := by
  rw [fir_1d_golden_eq]
  congr 1
  by_cases hx : x.length = 0
  · rw [if_pos (Or.inl hx), List.length_eq_zero.mp hx]
    rfl
  · have h0 : ¬ (x.length = 0 ∨ [(1 : α)].length = 0) := by simp [hx]
    rw [if_neg h0]
    apply List.ext_getElem?
    intro n
    by_cases hn : n < x.length
    · have hn1 : n < x.length + [(1 : α)].length - 1 := by simpa using hn
      rw [List.getElem?_map, List.getElem?_range hn1]
      simp [conv_at, List.range_succ, hn, List.getElem?_eq_getElem hn]
    · have h1 : (x.map (fun a => 0 + 1 * a))[n]? = none :=
        List.getElem?_eq_none (by simp; omega)
      rw [h1]
      exact List.getElem?_eq_none (by simp; omega)

/-! ## Exact arithmetic -/

theorem acc_sum_eq_sum {R : Type} [Semiring R] (K : Nat) (t : Nat → R) :
    acc_sum K t = ∑ k ∈ Finset.range K, t k := by
  unfold acc_sum
  induction K with
  | zero => simp
  | succ K ih => rw [List.range_succ, List.foldl_append, ih, Finset.sum_range_succ]; rfl

theorem conv_at_eq_sum {R : Type} [Semiring R] (x h : List R) (n : Nat) :
    conv_at x h n = ∑ k ∈ Finset.range h.length,
      if k ≤ n ∧ n - k < x.length then h.getD k 0 * x.getD (n - k) 0 else 0 := by
  unfold conv_at
  generalize h.length = K
  induction K with
  | zero => simp
  | succ K ih =>
    rw [List.range_succ, List.foldl_append, ih, Finset.sum_range_succ]
    by_cases hc : K ≤ n ∧ n - K < x.length
    · simp only [List.foldl_cons, List.foldl_nil, if_pos hc]
    · simp only [List.foldl_cons, List.foldl_nil, if_neg hc, add_zero]

/-- Register of a fresh filter after the samples `x[0..n]`: entry `k` is
`x[n - k]` while `k ≤ n`, and `0` beyond. -/
theorem window_fresh_getD [Zero α] (K : Nat) (x : List α) (n k : Nat)
    (hn : n < x.length) (hk : k < K) :
    (window K (List.replicate K 0) (x.take (n + 1))).getD k 0 =
      if k ≤ n then x.getD (n - k) 0 else 0 := by
  have hlen : (x.take (n + 1)).length = n + 1 := by
    rw [List.length_take]; omega
  simp only [window, List.getD_eq_getElem?_getD, List.getElem?_take, hk, if_true]
  by_cases hkn : k ≤ n
  · have h1 : k < (x.take (n + 1)).reverse.length := by
      rw [List.length_reverse, hlen]; omega
    have h2 : k < (x.take (n + 1)).length := by omega
    have h3 : n + 1 - 1 - k < n + 1 := by omega
    rw [List.getElem?_append_left h1, List.getElem?_reverse h2, hlen, List.getElem?_take,
      if_pos h3, if_pos hkn]
    simp
  · have h1 : (x.take (n + 1)).reverse.length ≤ k := by
      rw [List.length_reverse, hlen]; omega
    rw [List.getElem?_append_right h1, if_neg hkn, List.getElem?_replicate]
    split <;> rfl

theorem golden_getElem? [Zero α] [Add α] [Mul α] (x h : List α) (hx : x ≠ [])
    (hh : h ≠ []) (n : Nat) (hn : n < x.length + h.length - 1) :
    ∃ y, fir_1d_golden x h = some y ∧ y[n]? = some (conv_at x h n) := by
  have h0 : ¬ (x.length = 0 ∨ h.length = 0) := by
    rw [List.length_eq_zero, List.length_eq_zero]
    exact not_or.mpr ⟨hx, hh⟩
  refine ⟨_, fir_1d_golden_eq x h, ?_⟩
  rw [if_neg h0, List.getElem?_map, List.getElem?_range hn]
  rfl

theorem conv_at_comm {R : Type} [CommSemiring R] (x h : List R) (n : Nat) :
    conv_at x h n = conv_at h x n := by
  rw [conv_at_eq_sum, conv_at_eq_sum, ← Finset.sum_filter, ← Finset.sum_filter]
  refine Finset.sum_nbij' (fun k => n - k) (fun j => n - j) ?_ ?_ ?_ ?_ ?_
  · intro k hk
    simp only [Finset.mem_filter, Finset.mem_range] at hk ⊢
    omega
  · intro j hj
    simp only [Finset.mem_filter, Finset.mem_range] at hj ⊢
    omega
  · intro k hk
    simp only [Finset.mem_filter, Finset.mem_range] at hk
    show n - (n - k) = k
    omega
  · intro j hj
    simp only [Finset.mem_filter, Finset.mem_range] at hj
    show n - (n - j) = j
    omega
  · intro k hk
    simp only [Finset.mem_filter, Finset.mem_range] at hk
    have : n - (n - k) = k := by omega
    rw [this, mul_comm]

/-- Values returned by a fresh filter, in exact arithmetic: call `n` returns
the sum of `h[k] * x[n - k]` over the `k < K` with `k ≤ n`. -/
theorem feed_fresh_sum {R : Type} [Semiring R] (h x : List R) :
    ∃ ys s, feed (ofTaps h) x = some (ys, s) ∧ ys.length = x.length ∧
      ∀ n, n < x.length →
        ys[n]? = some (∑ k ∈ Finset.range h.length,
          h.getD k 0 * (if k ≤ n then x.getD (n - k) 0 else 0)) := by
  by_cases he : h = []
  · refine ⟨_, _, feed_nil (ofTaps h) x (by simp [ofTaps, set_taps, he]), by simp, ?_⟩
    intro n hn
    simp [he, hn]
  · refine ⟨_, _, feed_eq (ofTaps h) x he (by simp [ofTaps, set_taps]), by simp [outputs], ?_⟩
    intro n hn
    rw [outputs_getElem? _ _ _ _ hn]
    simp only [ofTaps, set_taps]
    congr 1
    rw [dot, acc_sum_eq_sum]
    apply Finset.sum_congr rfl
    intro k hk
    rw [window_fresh_getD h.length x n k hn (Finset.mem_range.mp hk)]

theorem zipWith_getD {R : Type} [Zero R] (f : R → R → R) (x x1 : List R) (j : Nat)
    (hj : j < x.length) (hlen : x.length = x1.length) :
    (List.zipWith f x x1).getD j 0 = f (x.getD j 0) (x1.getD j 0) := by
  have hj1 : j < x1.length := by omega
  simp [List.getD, List.getElem?_zipWith, List.getElem?_eq_getElem hj,
    List.getElem?_eq_getElem hj1]

theorem append_zeros_getD {R : Type} [Zero R] (x : List R) (m j : Nat) :
    (x ++ List.replicate m 0).getD j 0 = if j < x.length then x.getD j 0 else 0 := by
  by_cases hj : j < x.length
  · simp [List.getD, List.getElem?_append_left hj, hj]
  · have hj1 : x.length ≤ j := by omega
    simp only [List.getD_eq_getElem?_getD, List.getElem?_append_right hj1, if_neg hj,
      List.getElem?_replicate]
    split <;> rfl

/-! ## The claims -/

/-- C3. Convolution length law: `fir_1d_golden x h` returns a sequence of length
`|x| + |h| - 1` when both `x` and `h` are non-empty, and returns the empty
sequence when `x` is empty or `h` is empty. -/
theorem golden_length_law [Zero α] [Add α] [Mul α] (x h : List α) :
    (x ≠ [] → h ≠ [] →
      ∃ y, fir_1d_golden x h = some y ∧ y.length = x.length + h.length - 1) ∧
    (x = [] ∨ h = [] → fir_1d_golden x h = some []) := by
  rw [fir_1d_golden_eq]
  constructor
  · intro hx hh
    have : ¬ (x.length = 0 ∨ h.length = 0) := by
      rw [List.length_eq_zero, List.length_eq_zero]
      exact not_or.mpr ⟨hx, hh⟩
    rw [if_neg this]
    exact ⟨_, rfl, by rw [List.length_map, List.length_range]⟩
  · intro h0
    have : x.length = 0 ∨ h.length = 0 := by
      rw [List.length_eq_zero, List.length_eq_zero]
      exact h0
    rw [if_pos this]

theorem golden_length_law_witness :
    (∃ y, fir_1d_golden [(1 : ℤ), 3, 5] [2, 7] = some y ∧ y.length = 3 + 2 - 1) ∧
    fir_1d_golden ([] : List ℤ) [2, 7] = some [] :=
  ⟨(golden_length_law [(1 : ℤ), 3, 5] [2, 7]).1 (by decide) (by decide),
   (golden_length_law ([] : List ℤ) [2, 7]).2 (by decide)⟩

/-- C6. Zero-tap identity: on a filter whose coefficient sequence is empty
(default-constructed, after `set_taps([])` on any state, or `Fir1D([])`),
`process_sample(x)` returns `0.0` and the state is unchanged: the coefficients
are still empty and the register still has length 0. -/
theorem zero_tap_identity [Zero α] [Add α] [Mul α] (s0 : Fir1D α) (x_n : α) :
    (process_sample (empty : Fir1D α) x_n = some (0, empty) ∧
      taps (empty : Fir1D α) = [] ∧ (empty : Fir1D α).reg_.length = 0) ∧
    (process_sample (set_taps s0 []) x_n = some (0, set_taps s0 []) ∧
      taps (set_taps s0 []) = [] ∧ (set_taps s0 []).reg_.length = 0) ∧
    (process_sample (ofTaps ([] : List α)) x_n = some (0, ofTaps []) ∧
      taps (ofTaps ([] : List α)) = [] ∧ (ofTaps ([] : List α)).reg_.length = 0) := by
  refine ⟨⟨?_, rfl, rfl⟩, ⟨?_, rfl, rfl⟩, ⟨?_, rfl, rfl⟩⟩
  · exact process_sample_nil _ _ rfl
  · exact process_sample_nil _ _ rfl
  · exact process_sample_nil _ _ rfl

/-- C7. Register-length invariant: every finite sequence of `set_taps`,
`process_sample` and `reset` calls, started on a default-constructed filter or
on `Fir1D(h)`, runs to a state whose register has exactly as many elements as
its coefficient sequence. -/
theorem register_length_invariant [Zero α] [Add α] [Mul α] (h : List α)
    (cs : List (Call α)) :
    (∃ s, run_calls (empty : Fir1D α) cs = some s ∧ s.reg_.length = s.h_.length) ∧
    (∃ s, run_calls (ofTaps h) cs = some s ∧ s.reg_.length = s.h_.length) :=
  ⟨run_calls_preserves_length empty cs rfl,
   run_calls_preserves_length (ofTaps h) cs (by simp [ofTaps, set_taps])⟩

/-- C8. Re-configuration clears history: after feeding any samples `p` to
`Fir1D(h)`, `set_taps(h1)` leaves the coefficients equal to `h1` and the
register equal to `|h1|` zeros; the state is that of a fresh `Fir1D(h1)`. -/
theorem reconfigure_clears_history [Zero α] [Add α] [Mul α] (h p h1 : List α) :
    ∃ ys s, feed (ofTaps h) p = some (ys, s) ∧
      taps (set_taps s h1) = h1 ∧
      (set_taps s h1).reg_ = List.replicate h1.length 0 ∧
      set_taps s h1 = ofTaps h1 := by
  obtain ⟨ys, s, hrun, _, _, _⟩ := feed_ofTaps_total h p
  exact ⟨ys, s, hrun, rfl, rfl, rfl⟩

/-- C9. Reset restores the fresh state: after feeding any samples `p` to
`Fir1D(h)` and calling `reset()`, `taps()` is still `h`, the register is all
zeros, feeding `x` produces exactly the run of a fresh `Fir1D(h)` on `x` (which
returns one value per sample), and a second `reset()` changes nothing. -/
theorem reset_restores_fresh [Zero α] [Add α] [Mul α] (h p x : List α) :
    ∃ ys s, feed (ofTaps h) p = some (ys, s) ∧
      taps (reset s) = h ∧
      (reset s).reg_ = List.replicate h.length 0 ∧
      feed (reset s) x = feed (ofTaps h) x ∧
      (∃ zs t, feed (ofTaps h) x = some (zs, t) ∧ zs.length = x.length) ∧
      reset (reset s) = reset s := by
  obtain ⟨ys, s, hrun, hs, _, _⟩ := feed_ofTaps_total h p
  obtain ⟨zs, t, hz, _, _, hzl⟩ := feed_ofTaps_total h x
  have hfresh : reset s = ofTaps h := by
    simp [reset, ofTaps, set_taps, hs]
  refine ⟨ys, s, hrun, ?_, ?_, ?_, ⟨zs, t, hz, hzl⟩, ?_⟩
  · simp [taps, reset, hs]
  · simp [reset, hs]
  · rw [hfresh]
  · simp [reset]

/-- Convolution sum in exact arithmetic: for non-empty `x` (length `N`) and `h`
(length `K`) and every `n < N + K - 1`, entry `n` of `fir_1d_golden x h` is the
order-free sum of `h[k] * x[n - k]` over those `k < K` with `k ≤ n` and
`n - k < N`. -/
theorem golden_convolution_sum {R : Type} [Semiring R] (x h : List R) (hx : x ≠ [])
    (hh : h ≠ []) (n : Nat) (hn : n < x.length + h.length - 1) :
    ∃ y, fir_1d_golden x h = some y ∧
      y[n]? = some (∑ k ∈ (Finset.range h.length).filter
        (fun k => k ≤ n ∧ n - k < x.length), h.getD k 0 * x.getD (n - k) 0) := by
  obtain ⟨y, hy, hyn⟩ := golden_getElem? x h hx hh n hn
  exact ⟨y, hy, by rw [hyn, conv_at_eq_sum, Finset.sum_filter]⟩

theorem golden_convolution_sum_witness :
    ∃ y, fir_1d_golden [(1 : ℤ), 3, 5] [2, 7] = some y ∧
      y[3]? = some (∑ k ∈ (Finset.range 2).filter (fun k => k ≤ 3 ∧ 3 - k < 3),
        [(2 : ℤ), 7].getD k 0 * [(1 : ℤ), 3, 5].getD (3 - k) 0) :=
  golden_convolution_sum [(1 : ℤ), 3, 5] [2, 7] (by decide) (by decide) 3 (by decide)

/-- C4, amended. Commutativity of convolution in exact arithmetic (the samples
form a commutative semiring, such as the rationals or the reals): for non-empty
`x` and `h`, `fir_1d_golden x h` and `fir_1d_golden h x` return the same
sequence, of length `|x| + |h| - 1`. -/
theorem golden_comm {R : Type} [CommSemiring R] (x h : List R) (hx : x ≠ [])
    (hh : h ≠ []) :
    ∃ y, fir_1d_golden x h = some y ∧ fir_1d_golden h x = some y ∧
      y.length = x.length + h.length - 1 := by
  have h0 : ¬ (x.length = 0 ∨ h.length = 0) := by
    rw [List.length_eq_zero, List.length_eq_zero]
    exact not_or.mpr ⟨hx, hh⟩
  have h1 : ¬ (h.length = 0 ∨ x.length = 0) := fun hc => h0 hc.symm
  refine ⟨_, fir_1d_golden_eq x h, ?_, ?_⟩
  · rw [fir_1d_golden_eq, if_neg h0, if_neg h1, Nat.add_comm h.length x.length]
    congr 2
    funext n
    exact conv_at_comm h x n
  · rw [if_neg h0, List.length_map, List.length_range]

theorem golden_comm_witness :
    ∃ y, fir_1d_golden [(1 : ℤ), 3, 5] [2, 7] = some y ∧
      fir_1d_golden [(2 : ℤ), 7] [1, 3, 5] = some y ∧ y.length = 3 + 2 - 1 :=
  golden_comm [(1 : ℤ), 3, 5] [2, 7] (by decide) (by decide)

/-- Single-impulse identity in exact arithmetic: where `0 + a = a` and
`1 * a = a` hold for all values, `fir_1d_golden x [1.0]` returns `x` for every
sequence `x`, the empty one included. -/
theorem golden_single_impulse {R : Type} [AddZeroClass R] [MulOneClass R] (x : List R) :
    fir_1d_golden x [1] = some x := by
  rw [fir_1d_golden_eq]
  congr 1
  by_cases hx : x.length = 0
  · rw [if_pos (Or.inl hx)]
    exact (List.length_eq_zero.mp hx).symm
  · have h0 : ¬ (x.length = 0 ∨ [(1 : R)].length = 0) := by simp [hx]
    rw [if_neg h0]
    apply List.ext_getElem?
    intro n
    by_cases hn : n < x.length
    · have hn1 : n < x.length + [(1 : R)].length - 1 := by simpa using hn
      rw [List.getElem?_map, List.getElem?_range hn1]
      simp [conv_at, List.range_succ, hn, List.getElem?_eq_getElem hn]
    · have h1 : x[n]? = none := List.getElem?_eq_none (by omega)
      rw [h1]
      exact List.getElem?_eq_none (by simp; omega)

/-- C1. Streaming/batch equivalence: for non-empty `h`, any `x` and `n < |x|`,
feeding `x[0], ..., x[n]` in order to a fresh `Fir1D(h)` makes all `n + 1` calls
return, and the value of the last call equals entry `n` of `fir_1d_golden x h`,
in exact arithmetic. -/
theorem streaming_batch_equivalence {R : Type} [Semiring R] (h x : List R)
    (hh : h ≠ []) (n : Nat) (hn : n < x.length) :
    ∃ ys s y v, feed (ofTaps h) (x.take (n + 1)) = some (ys, s) ∧ ys.length = n + 1 ∧
      fir_1d_golden x h = some y ∧ ys[n]? = some v ∧ y[n]? = some v := by
  have hx : x ≠ [] := by
    intro hx0
    rw [hx0] at hn
    exact Nat.not_lt_zero _ hn
  have hK : 0 < h.length := List.length_pos.mpr hh
  obtain ⟨y, hy, hyn⟩ := golden_getElem? x h hx hh n (by omega)
  have hlen : (x.take (n + 1)).length = n + 1 := by
    rw [List.length_take]; omega
  have hrun := feed_eq (ofTaps h) (x.take (n + 1)) hh (by simp [ofTaps, set_taps])
  refine ⟨_, _, y, conv_at x h n, hrun, ?_, hy, ?_, hyn⟩
  · simp only [outputs, List.length_map, List.length_range, hlen]
  · have hn1 : n < (x.take (n + 1)).length := by omega
    simp only [outputs, List.getElem?_map, List.getElem?_range hn1, Option.map_some',
      List.take_take, Nat.min_self, ofTaps, set_taps]
    congr 1
    rw [dot, acc_sum_eq_sum, conv_at_eq_sum]
    apply Finset.sum_congr rfl
    intro k hk
    rw [window_fresh_getD h.length x n k hn (Finset.mem_range.mp hk)]
    by_cases hkn : k ≤ n
    · have : k ≤ n ∧ n - k < x.length := ⟨hkn, by omega⟩
      rw [if_pos hkn, if_pos this]
    · have : ¬ (k ≤ n ∧ n - k < x.length) := fun hc => hkn hc.1
      rw [if_neg hkn, if_neg this, mul_zero]

theorem streaming_batch_equivalence_witness :
    ∃ ys s y v, feed (ofTaps [(2 : ℤ), 7]) ([(1 : ℤ), 3, 5].take (1 + 1)) = some (ys, s) ∧
      ys.length = 1 + 1 ∧ fir_1d_golden [(1 : ℤ), 3, 5] [2, 7] = some y ∧
      ys[1]? = some v ∧ y[1]? = some v :=
  streaming_batch_equivalence [(2 : ℤ), 7] [1, 3, 5] (by decide) 1 (by decide)

/-- C10. Worked example: `fir_1d_golden([1, 3, 5], [0.5, 0.5])` is
`[0.5, 2, 4, 2.5]`, and feeding `1, 3, 5` in that order to `Fir1D([0.5, 0.5])`
makes `process_sample` return `0.5, 2, 4` in that order. -/
theorem worked_example :
    fir_1d_golden [(1 : ℚ), 3, 5] [1 / 2, 1 / 2] = some [1 / 2, 2, 4, 5 / 2] ∧
    ∃ s, feed (ofTaps [(1 / 2 : ℚ), 1 / 2]) [1, 3, 5] = some ([1 / 2, 2, 4], s) := by
  constructor
  · simp [fir_1d_golden, golden_outer, golden_inner, golden_step, vec_read, vec_write,
      List.range, List.range.loop]
    norm_num
  · simp [feed, ofTaps, set_taps, process_sample, shift_loop, size_pred, mac_loop, mac_step,
      vec_read, vec_write, List.range, List.range.loop]
    norm_num

/-- C4, as stated, fails in double precision: with `x = [1, 2^53, -2^53]` and
`h = [1, 1, 1]`, entry 2 of `fir_1d_golden x h` is `(-2^53 + 2^53) + 1 = 1`,
while entry 2 of `fir_1d_golden h x` is `(1 + 2^53) + -2^53 = 0`: the same three
products are added in opposite orders and `1 + 2^53` rounds to `2^53`. -/
theorem golden_comm_fails_in_binary64 :
    fir_1d_golden [(⟨1⟩ : IntDouble), ⟨2 ^ 53⟩, ⟨-2 ^ 53⟩] [⟨1⟩, ⟨1⟩, ⟨1⟩] =
      some [⟨1⟩, ⟨2 ^ 53⟩, ⟨1⟩, ⟨0⟩, ⟨-2 ^ 53⟩] ∧
    fir_1d_golden [(⟨1⟩ : IntDouble), ⟨1⟩, ⟨1⟩] [⟨1⟩, ⟨2 ^ 53⟩, ⟨-2 ^ 53⟩] =
      some [⟨1⟩, ⟨2 ^ 53⟩, ⟨0⟩, ⟨0⟩, ⟨-2 ^ 53⟩] ∧
    fir_1d_golden [(⟨1⟩ : IntDouble), ⟨2 ^ 53⟩, ⟨-2 ^ 53⟩] [⟨1⟩, ⟨1⟩, ⟨1⟩] ≠
      fir_1d_golden [(⟨1⟩ : IntDouble), ⟨1⟩, ⟨1⟩] [⟨1⟩, ⟨2 ^ 53⟩, ⟨-2 ^ 53⟩] := by
  decide

/-- C12. Complex division zero-guard: for every `z` and every divisor `t` whose
squared magnitude `t.x * t.x + t.y * t.y` is `0`, `z / t` is the complex value
`(0, 0)`; the operation is a total function and has no error outcome. -/
theorem division_zero_guard [Zero α] [Add α] [Sub α] [Mul α] [Div α] [DecidableEq α]
    (z t : MyComplex α) (hcheck : t.x_ * t.x_ + t.y_ * t.y_ = 0) :
    MyComplex.operator_div z t = ⟨0, 0⟩ := by
  simp only [MyComplex.operator_div, hcheck, if_true]

theorem division_zero_guard_witness :
    (0 : ℤ) * 0 + 0 * 0 = 0 ∧
      MyComplex.operator_div (⟨3, 4⟩ : MyComplex ℤ) ⟨0, 0⟩ = ⟨0, 0⟩ :=
  ⟨by decide, division_zero_guard (⟨3, 4⟩ : MyComplex ℤ) ⟨0, 0⟩ (by decide)⟩

/-- C19. At `a = 5`, `t = 2 + 3i` the friend `operator-(a, t)` returns
`(t.x - a, t.y) = (-3, 3)`, whereas `MyComplex(a, 0) - t` computed with the
member `operator-` is `(a - t.x, 0 - t.y) = (3, -3)`: the friend computes
`t - a`, not `a - t`. -/
theorem friend_minus_diverges :
    MyComplex.friend_operator_minus (5 : ℤ) ⟨2, 3⟩ = ⟨-3, 3⟩ ∧
    MyComplex.operator_minus (⟨5, 0⟩ : MyComplex ℤ) ⟨2, 3⟩ = ⟨3, -3⟩ ∧
    MyComplex.friend_operator_minus (5 : ℤ) ⟨2, 3⟩ ≠
      MyComplex.operator_minus (⟨5, 0⟩ : MyComplex ℤ) ⟨2, 3⟩ ∧
    MyComplex.friend_operator_minus (5 : ℤ) ⟨2, 3⟩ =
      MyComplex.operator_minus (⟨2, 3⟩ : MyComplex ℤ) ⟨5, 0⟩ := by
  decide

/-- C11. Totality without failure: every state reached from a constructor by
`set_taps`, `process_sample` and `reset` calls accepts a further
`process_sample` call without any out-of-range access (the call returns a value
and a state); in such a state with non-empty coefficients the register is
non-empty, so `reg_.size() - 1` does not wrap; and `fir_1d_golden` returns for
all inputs. -/
theorem totality_without_failure [Zero α] [Add α] [Mul α] (h : List α)
    (cs : List (Call α)) (x_n : α) (x g : List α) :
    (∃ s, run_calls (empty : Fir1D α) cs = some s ∧
      (∃ y s1, process_sample s x_n = some (y, s1)) ∧
      (s.h_ ≠ [] → 0 < s.reg_.length ∧ size_pred s.reg_.length = s.reg_.length - 1)) ∧
    (∃ s, run_calls (ofTaps h) cs = some s ∧
      (∃ y s1, process_sample s x_n = some (y, s1)) ∧
      (s.h_ ≠ [] → 0 < s.reg_.length ∧ size_pred s.reg_.length = s.reg_.length - 1)) ∧
    (∃ y, fir_1d_golden x g = some y) := by
  have key : ∀ s : Fir1D α, s.reg_.length = s.h_.length →
      (∃ y s1, process_sample s x_n = some (y, s1)) ∧
      (s.h_ ≠ [] → 0 < s.reg_.length ∧ size_pred s.reg_.length = s.reg_.length - 1) := by
    intro s hlen
    refine ⟨process_sample_total s x_n hlen, ?_⟩
    intro hne
    have hpos : 0 < s.reg_.length := by
      rw [hlen]; exact List.length_pos.mpr hne
    refine ⟨hpos, ?_⟩
    unfold size_pred
    rw [if_neg (by omega)]
  obtain ⟨s, hs, hlen⟩ := run_calls_preserves_length (empty : Fir1D α) cs rfl
  obtain ⟨t, ht, htlen⟩ :=
    run_calls_preserves_length (ofTaps h) cs (by simp [ofTaps, set_taps])
  exact ⟨⟨s, hs, key s hlen⟩, ⟨t, ht, key t htlen⟩, ⟨_, fir_1d_golden_eq x g⟩⟩

/-- C13. The `process_sample` step: on a state with non-empty coefficients `h`
(length `K`) and a register `r` of length `K`, the call returns, keeps `h`,
leaves the register equal to `x_n` followed by the first `K - 1` elements of
`r`, and returns the sum of `h[k] * r1[k]` over the new register `r1`,
accumulated from `0.0` in ascending `k = 0 .. K - 1`. -/
theorem process_sample_step [Zero α] [Add α] [Mul α] (s : Fir1D α) (x_n : α)
    (hne : s.h_ ≠ []) (hlen : s.reg_.length = s.h_.length) :
    ∃ y s1, process_sample s x_n = some (y, s1) ∧ s1.h_ = s.h_ ∧
      s1.reg_ = x_n :: s.reg_.take (s.h_.length - 1) ∧
      y = (List.range s.h_.length).foldl
        (fun acc k => acc + s.h_.getD k 0 * s1.reg_.getD k 0) 0 := by
  refine ⟨_, _, process_sample_eq s x_n hne hlen, rfl, ?_, rfl⟩
  rw [List.dropLast_eq_take, hlen]

theorem process_sample_step_witness :
    ∃ y s1, process_sample (⟨[2, 7], [4, 9]⟩ : Fir1D ℤ) 1 = some (y, s1) ∧
      s1.h_ = [2, 7] ∧ s1.reg_ = 1 :: [(4 : ℤ), 9].take ([(2 : ℤ), 7].length - 1) ∧
      y = (List.range [(2 : ℤ), 7].length).foldl
        (fun acc k => acc + [(2 : ℤ), 7].getD k 0 * s1.reg_.getD k 0) 0 :=
  process_sample_step (⟨[2, 7], [4, 9]⟩ : Fir1D ℤ) 1 (by decide) (by decide)

/-- C15. Coefficients are framed: after `set_taps(h)` (on any state) or
`Fir1D(h)`, `taps()` is `h`, and after any finite sequence of `process_sample`
and `reset` calls (no `set_taps` among them) `taps()` is still `h`. -/
theorem taps_framed [Zero α] [Add α] [Mul α] (s0 : Fir1D α) (h : List α)
    (cs : List (Call α)) (hcs : ∀ c ∈ cs, ∀ h1, c ≠ Call.set_taps h1) :
    taps (set_taps s0 h) = h ∧ taps (ofTaps h) = h ∧
    (∃ s, run_calls (set_taps s0 h) cs = some s ∧ taps s = h) ∧
    (∃ s, run_calls (ofTaps h) cs = some s ∧ taps s = h) := by
  refine ⟨rfl, rfl, ?_, ?_⟩
  · exact run_calls_keeps_taps (set_taps s0 h) cs (by simp [set_taps]) hcs
  · exact run_calls_keeps_taps (ofTaps h) cs (by simp [ofTaps, set_taps]) hcs

theorem taps_framed_witness :
    taps (set_taps (⟨[5], [6]⟩ : Fir1D ℤ) [2, 7]) = [2, 7] ∧ taps (ofTaps [(2 : ℤ), 7]) = [2, 7] ∧
    (∃ s, run_calls (set_taps (⟨[5], [6]⟩ : Fir1D ℤ) [2, 7])
      [Call.process_sample 1, Call.reset, Call.process_sample 3] = some s ∧ taps s = [2, 7]) ∧
    (∃ s, run_calls (ofTaps [(2 : ℤ), 7])
      [Call.process_sample 1, Call.reset, Call.process_sample 3] = some s ∧ taps s = [2, 7]) :=
  taps_framed (⟨[5], [6]⟩ : Fir1D ℤ) [2, 7]
    [Call.process_sample 1, Call.reset, Call.process_sample 3]
    (by
      intro c hc h1
      simp only [List.mem_cons, List.mem_singleton, List.not_mem_nil, or_false] at hc
      rcases hc with rfl | rfl | rfl <;> exact Call.noConfusion)

/-- C16. Finite memory: two states with the same non-empty coefficients `h`
(length `K`) and arbitrary registers of length `K` are in one and the same
state after being fed the same `K` samples `xs`, so every later run on the same
inputs `zs` returns the same values; each of those values is the weighted sum
of `h` with the `K` most recent samples, most recent first. -/
theorem finite_memory [Zero α] [Add α] [Mul α] (h : List α) (s1 s2 : Fir1D α)
    (xs zs : List α) (hh : h ≠ []) (h1 : s1.h_ = h) (h2 : s2.h_ = h)
    (hr1 : s1.reg_.length = h.length) (hr2 : s2.reg_.length = h.length)
    (hxs : xs.length = h.length) :
    ∃ ys1 ys2 t, feed s1 xs = some (ys1, t) ∧ feed s2 xs = some (ys2, t) ∧
      t.h_ = h ∧ t.reg_ = xs.reverse ∧
      ∃ ws u, feed t zs = some (ws, u) ∧ ws.length = zs.length ∧
        ∀ i, i < zs.length →
          ws[i]? = some (dot h ((xs ++ zs.take (i + 1)).reverse.take h.length)) := by
  subst h1
  have hw : ∀ r0 : List α, window s1.h_.length r0 xs = xs.reverse := by
    intro r0
    rw [window_of_length_le _ _ _ (by omega), ← hxs, ← List.length_reverse xs,
      List.take_length]
  have e1 := feed_eq s1 xs hh hr1
  have e2 := feed_eq s2 xs (by rw [h2]; exact hh) (by rw [h2]; exact hr2)
  rw [h2, hw] at e2
  rw [hw] at e1
  have e3 := feed_eq ({ s1 with reg_ := xs.reverse } : Fir1D α) zs hh
    (by simpa using hxs)
  refine ⟨_, _, _, e1, e2, rfl, rfl, _, _, e3, by simp [outputs], ?_⟩
  intro i hi
  rw [outputs_getElem? _ _ _ _ hi]
  simp only [window, List.reverse_append]

theorem finite_memory_witness :
    ∃ ys1 ys2 t, feed (⟨[2, 7], [4, 9]⟩ : Fir1D ℤ) [1, 3] = some (ys1, t) ∧
      feed (⟨[2, 7], [-5, 8]⟩ : Fir1D ℤ) [1, 3] = some (ys2, t) ∧
      t.h_ = [2, 7] ∧ t.reg_ = [(1 : ℤ), 3].reverse ∧
      ∃ ws u, feed t [6, 0] = some (ws, u) ∧ ws.length = [(6 : ℤ), 0].length ∧
        ∀ i, i < [(6 : ℤ), 0].length →
          ws[i]? = some (dot [2, 7]
            (([(1 : ℤ), 3] ++ [(6 : ℤ), 0].take (i + 1)).reverse.take [(2 : ℤ), 7].length)) :=
  finite_memory [2, 7] ⟨[2, 7], [4, 9]⟩ ⟨[2, 7], [-5, 8]⟩ [1, 3] [6, 0]
    (by decide) rfl rfl (by decide) (by decide) (by decide)

/-- C14. Delay-line contents: for non-empty `h` (length `K`) and `n < |x|`,
after feeding `x[0], ..., x[n]` to a fresh `Fir1D(h)`, or to a filter with
coefficients `h` that has just been reset, the register has length `K` and
holds the inputs most recent first: `register[k] = x[n - k]` for `k < K` with
`k ≤ n`, and `register[k] = 0.0` for `k < K` with `k > n`. -/
theorem delay_line_contents [Zero α] [Add α] [Mul α] (h x : List α) (s0 : Fir1D α)
    (hh : h ≠ []) (hs0 : s0.h_ = h) (n : Nat) (hn : n < x.length) :
    (∃ ys s, feed (ofTaps h) (x.take (n + 1)) = some (ys, s) ∧
      s.reg_.length = h.length ∧
      ∀ k, k < h.length →
        (k ≤ n → s.reg_[k]? = x[n - k]?) ∧ (n < k → s.reg_[k]? = some 0)) ∧
    (∃ ys s, feed (reset s0) (x.take (n + 1)) = some (ys, s) ∧
      s.reg_.length = h.length ∧
      ∀ k, k < h.length →
        (k ≤ n → s.reg_[k]? = x[n - k]?) ∧ (n < k → s.reg_[k]? = some 0)) := by
  have hfresh : reset s0 = ofTaps h := by
    simp [reset, ofTaps, set_taps, hs0]
  have main : ∃ ys s, feed (ofTaps h) (x.take (n + 1)) = some (ys, s) ∧
      s.reg_.length = h.length ∧
      ∀ k, k < h.length →
        (k ≤ n → s.reg_[k]? = x[n - k]?) ∧ (n < k → s.reg_[k]? = some 0) := by
    have hrun := feed_eq (ofTaps h) (x.take (n + 1)) hh (by simp [ofTaps, set_taps])
    have hwl : (window h.length (List.replicate h.length (0 : α)) (x.take (n + 1))).length
        = h.length := window_length _ _ _ (by simp)
    refine ⟨_, _, hrun, hwl, ?_⟩
    intro k hk
    have hget := getElem?_eq_some_getD
      (window h.length (List.replicate h.length (0 : α)) (x.take (n + 1))) k (by omega)
    rw [window_fresh_getD h.length x n k hn hk] at hget
    constructor
    · intro hkn
      show (window h.length (List.replicate h.length (0 : α)) (x.take (n + 1)))[k]? = _
      rw [hget, if_pos hkn, getElem?_eq_some_getD x (n - k) (by omega)]
    · intro hkn
      show (window h.length (List.replicate h.length (0 : α)) (x.take (n + 1)))[k]? = _
      rw [hget, if_neg (by omega)]
  rw [hfresh]
  exact ⟨main, main⟩

theorem delay_line_contents_witness :
    (∃ ys s, feed (ofTaps [(2 : ℤ), 7, 1]) ([(4 : ℤ), 9, 6].take (1 + 1)) = some (ys, s) ∧
      s.reg_.length = [(2 : ℤ), 7, 1].length ∧
      ∀ k, k < [(2 : ℤ), 7, 1].length →
        (k ≤ 1 → s.reg_[k]? = [(4 : ℤ), 9, 6][1 - k]?) ∧ (1 < k → s.reg_[k]? = some 0)) ∧
    (∃ ys s, feed (reset (⟨[2, 7, 1], [8, 8, 8]⟩ : Fir1D ℤ)) ([(4 : ℤ), 9, 6].take (1 + 1))
        = some (ys, s) ∧
      s.reg_.length = [(2 : ℤ), 7, 1].length ∧
      ∀ k, k < [(2 : ℤ), 7, 1].length →
        (k ≤ 1 → s.reg_[k]? = [(4 : ℤ), 9, 6][1 - k]?) ∧ (1 < k → s.reg_[k]? = some 0)) :=
  delay_line_contents [2, 7, 1] [4, 9, 6] ⟨[2, 7, 1], [8, 8, 8]⟩ (by decide) rfl 1 (by decide)

/-- C17. Linearity of the streaming filter, in exact arithmetic: for every `h`,
scalar `a` and inputs `x`, `x1` of equal length, feeding the samples
`a * x[i] + x1[i]` to a fresh `Fir1D(h)` returns, element by element, `a` times
the values returned for `x` plus the values returned for `x1` (each run on a
fresh `Fir1D(h)`). -/
theorem streaming_linearity {R : Type} [CommSemiring R] (h : List R) (a : R)
    (x x1 : List R) (hlen : x.length = x1.length) :
    ∃ ys ys1 zs s s1 t, feed (ofTaps h) x = some (ys, s) ∧
      feed (ofTaps h) x1 = some (ys1, s1) ∧
      feed (ofTaps h) (List.zipWith (fun u v => a * u + v) x x1) = some (zs, t) ∧
      zs.length = x.length ∧
      zs = List.zipWith (fun u v => a * u + v) ys ys1 := by
  obtain ⟨ys, s, hy, hyl, hyn⟩ := feed_fresh_sum h x
  obtain ⟨ys1, s1, hy1, hyl1, hyn1⟩ := feed_fresh_sum h x1
  obtain ⟨zs, t, hz, hzl, hzn⟩ :=
    feed_fresh_sum h (List.zipWith (fun u v => a * u + v) x x1)
  have hZ : (List.zipWith (fun u v => a * u + v) x x1).length = x.length := by
    rw [List.length_zipWith, ← hlen, Nat.min_self]
  rw [hZ] at hzl hzn
  refine ⟨ys, ys1, zs, s, s1, t, hy, hy1, hz, hzl, ?_⟩
  apply List.ext_getElem?
  intro n
  by_cases hn : n < x.length
  · rw [hzn n hn, List.getElem?_zipWith, hyn n hn, hyn1 n (by omega)]
    simp only [Option.some.injEq]
    rw [Finset.mul_sum, ← Finset.sum_add_distrib]
    apply Finset.sum_congr rfl
    intro k _
    by_cases hk : k ≤ n
    · rw [if_pos hk, if_pos hk, if_pos hk, zipWith_getD _ x x1 (n - k) (by omega) hlen]
      ring
    · rw [if_neg hk, if_neg hk, if_neg hk]
      ring
  · have e1 : zs[n]? = none := List.getElem?_eq_none (by omega)
    have e2 : ys[n]? = none := List.getElem?_eq_none (by omega)
    rw [e1, List.getElem?_zipWith, e2]

theorem streaming_linearity_witness :
    ∃ ys ys1 zs s s1 t, feed (ofTaps [(2 : ℤ), 7]) [1, 3, 5] = some (ys, s) ∧
      feed (ofTaps [(2 : ℤ), 7]) [4, 0, -1] = some (ys1, s1) ∧
      feed (ofTaps [(2 : ℤ), 7]) (List.zipWith (fun u v => 3 * u + v) [1, 3, 5] [4, 0, -1])
        = some (zs, t) ∧
      zs.length = [(1 : ℤ), 3, 5].length ∧
      zs = List.zipWith (fun u v => 3 * u + v) ys ys1 :=
  streaming_linearity [(2 : ℤ), 7] 3 [1, 3, 5] [4, 0, -1] (by decide)

/-- C18. Zero-flush reproduces the full convolution, in exact arithmetic: for
non-empty `x` (length `N`) and `h` (length `K`), feeding `x` followed by
`K - 1` samples `0.0` to a fresh `Fir1D(h)` returns `N + K - 1` values, and they
are exactly the sequence returned by `fir_1d_golden x h`. -/
theorem zero_flush_full_convolution {R : Type} [Semiring R] (x h : List R)
    (hx : x ≠ []) (hh : h ≠ []) :
    ∃ ys s, feed (ofTaps h) (x ++ List.replicate (h.length - 1) 0) = some (ys, s) ∧
      ys.length = x.length + h.length - 1 ∧
      fir_1d_golden x h = some ys := by
  have hN : 0 < x.length := List.length_pos.mpr hx
  have hK : 0 < h.length := List.length_pos.mpr hh
  obtain ⟨ys, s, hy, hyl, hyn⟩ := feed_fresh_sum h (x ++ List.replicate (h.length - 1) 0)
  have hX : (x ++ List.replicate (h.length - 1) (0 : R)).length = x.length + h.length - 1 := by
    rw [List.length_append, List.length_replicate]; omega
  rw [hX] at hyl hyn
  have h0 : ¬ (x.length = 0 ∨ h.length = 0) := by omega
  refine ⟨ys, s, hy, hyl, ?_⟩
  rw [fir_1d_golden_eq, if_neg h0]
  congr 1
  apply List.ext_getElem?
  intro n
  by_cases hn : n < x.length + h.length - 1
  · rw [List.getElem?_map, List.getElem?_range hn, hyn n hn]
    simp only [Option.map_some', Option.some.injEq]
    rw [conv_at_eq_sum]
    apply Finset.sum_congr rfl
    intro k _
    rw [append_zeros_getD]
    by_cases hk : k ≤ n
    · by_cases hk2 : n - k < x.length
      · rw [if_pos hk, if_pos hk2, if_pos ⟨hk, hk2⟩]
      · rw [if_pos hk, if_neg hk2, if_neg (fun hc => hk2 hc.2), mul_zero]
    · rw [if_neg hk, if_neg (fun hc => hk hc.1), mul_zero]
  · have e1 : ys[n]? = none := List.getElem?_eq_none (by omega)
    rw [e1]
    exact List.getElem?_eq_none (by simp; omega)

theorem zero_flush_full_convolution_witness :
    ∃ ys s, feed (ofTaps [(2 : ℤ), 7]) ([(1 : ℤ), 3, 5] ++ List.replicate ([(2 : ℤ), 7].length - 1) 0)
        = some (ys, s) ∧
      ys.length = [(1 : ℤ), 3, 5].length + [(2 : ℤ), 7].length - 1 ∧
      fir_1d_golden [(1 : ℤ), 3, 5] [2, 7] = some ys :=
  zero_flush_full_convolution [(1 : ℤ), 3, 5] [2, 7] (by decide) (by decide)

/-- C2. Convolution sum, in the arithmetic of the code itself: for non-empty `x`
(length `N`) and `h` (length `K`) and every `n < N + K - 1`, `fir_1d_golden x h`
returns a sequence of length `N + K - 1` whose entry `n` is the sum of the terms
`h[k] * x[n - k]` over exactly those `k < K` with `k ≤ n` and `n - k < N`, added
one by one in ascending `k` starting from `0.0`; a `k` with `n - k` negative or
`≥ N` contributes no term.  No law of arithmetic is assumed, so this holds for
doubles with their rounding. -/
theorem golden_convolution_sum_ascending [Zero α] [Add α] [Mul α] (x h : List α)
    (hx : x ≠ []) (hh : h ≠ []) (n : Nat) (hn : n < x.length + h.length - 1) :
    ∃ y, fir_1d_golden x h = some y ∧ y.length = x.length + h.length - 1 ∧
      y[n]? = some (((List.range h.length).filter
        (fun k => k ≤ n ∧ n - k < x.length)).foldl
          (fun acc k => acc + h.getD k 0 * x.getD (n - k) 0) 0) := by
  have h0 : ¬ (x.length = 0 ∨ h.length = 0) := by
    rw [List.length_eq_zero, List.length_eq_zero]
    exact not_or.mpr ⟨hx, hh⟩
  refine ⟨_, fir_1d_golden_eq x h, ?_, ?_⟩
  · rw [if_neg h0, List.length_map, List.length_range]
  · rw [if_neg h0, List.getElem?_map, List.getElem?_range hn]
    simp only [Option.map_some', conv_at]
    rw [foldl_ite_eq_foldl_filter (fun k => k ≤ n ∧ n - k < x.length)
      (fun acc k => acc + h.getD k 0 * x.getD (n - k) 0)]

theorem golden_convolution_sum_ascending_witness :
    ∃ y, fir_1d_golden [(⟨1⟩ : IntDouble), ⟨2 ^ 53⟩] [⟨1⟩, ⟨1⟩] = some y ∧
      y.length = [(⟨1⟩ : IntDouble), ⟨2 ^ 53⟩].length + [(⟨1⟩ : IntDouble), ⟨1⟩].length - 1 ∧
      y[1]? = some (((List.range [(⟨1⟩ : IntDouble), ⟨1⟩].length).filter
        (fun k => k ≤ 1 ∧ 1 - k < [(⟨1⟩ : IntDouble), ⟨2 ^ 53⟩].length)).foldl
          (fun acc k => acc + [(⟨1⟩ : IntDouble), ⟨1⟩].getD k 0 *
            [(⟨1⟩ : IntDouble), ⟨2 ^ 53⟩].getD (1 - k) 0) 0) :=
  golden_convolution_sum_ascending [(⟨1⟩ : IntDouble), ⟨2 ^ 53⟩] [⟨1⟩, ⟨1⟩]
    (by decide) (by decide) 1 (by decide)

/-- In double precision the accumulated sum is rounded: with `x = [1, 2^53]` and
`h = [1, 1]`, entry 1 of `fir_1d_golden x h` is `(0 + 2^53) + 1 = 2^53`, the
value the ascending accumulation of C2 gives there. -/
theorem golden_sum_rounds_in_binary64 :
    fir_1d_golden [(⟨1⟩ : IntDouble), ⟨2 ^ 53⟩] [⟨1⟩, ⟨1⟩] =
      some [⟨1⟩, ⟨2 ^ 53⟩, ⟨2 ^ 53⟩] ∧
    ((List.range 2).filter (fun k => k ≤ 1 ∧ 1 - k < 2)).foldl
      (fun acc k => acc + [(⟨1⟩ : IntDouble), ⟨1⟩].getD k 0 *
        [(⟨1⟩ : IntDouble), ⟨2 ^ 53⟩].getD (1 - k) 0) 0 = ⟨2 ^ 53⟩ := by
  decide

/-- C5, as stated, fails in double precision: `fir_1d_golden([-0.0], [1.0])`
computes `0.0 + 1.0 * -0.0` and returns `[+0.0]`, not `[-0.0]`; and at
`x = [NaN]` it returns `[NaN]`, which the comparison `==` does not report as
equal to `x`. -/
theorem single_impulse_fails_in_binary64 :
    fir_1d_golden [SignedDouble.finite true 0] [1] = some [SignedDouble.finite false 0] ∧
    fir_1d_golden [SignedDouble.finite true 0] [1] ≠ some [SignedDouble.finite true 0] ∧
    fir_1d_golden [SignedDouble.nan] [1] = some [SignedDouble.nan] ∧
    SignedDouble.ieee_eq SignedDouble.nan SignedDouble.nan = false := by
  decide

/-- C5, amended. Single-impulse identity: for every sequence `x`, the empty one
included, each of whose entries `a` satisfies `0.0 + 1.0 * a = a` (every value
in exact arithmetic; in double precision not `-0.0`), `fir_1d_golden x [1.0]`
returns `x`. -/
theorem golden_single_impulse_entries [Zero α] [One α] [Add α] [Mul α] (x : List α)
    (hx : ∀ a ∈ x, 0 + 1 * a = a) : fir_1d_golden x [1] = some x := by
  rw [golden_single_impulse_map]
  congr 1
  calc x.map (fun a => 0 + 1 * a) = x.map id := List.map_congr_left hx
    _ = x := List.map_id x

theorem golden_single_impulse_entries_witness :
    (∀ a ∈ [SignedDouble.finite false 3, SignedDouble.finite true 5, SignedDouble.finite false 0],
      0 + 1 * a = a) ∧
    fir_1d_golden [SignedDouble.finite false 3, SignedDouble.finite true 5,
      SignedDouble.finite false 0] [1] =
      some [SignedDouble.finite false 3, SignedDouble.finite true 5,
        SignedDouble.finite false 0] :=
  ⟨by decide, golden_single_impulse_entries _ (by decide)⟩

end Fir
